import Mathlib

/-!
Verification development for the wpmm package acquisition and installation
pipeline.  The definitions below are shallow embeddings of the JavaScript
source: URL resolution (`src/utils/index.js` and `src/lib/utils/index.js`),
archive-root detection (`src/lib/utils/fs.js`), redirect-following download
(`src/lib/utils/fs.js`), the per-package installation workflow
(`src/lib/Package.js`) and the orchestrator (`src/lib/Installer.js`).
Machine strings are Lean `String`s; JavaScript truthiness, `path.join`, and
`String.prototype.split` are modelled explicitly below.
-/

namespace Wpmm

/-- Models JavaScript `s.startsWith(p)`. -/
def strStarts (s p : String) : Bool := p.data.isPrefixOf s.data

/-- Splits a character list at every occurrence of `c`; an empty list yields
one empty segment, mirroring `''.split(c)` returning `['']` in JavaScript. -/
def splitAux (c : Char) : List Char → List (List Char)
  | [] => [[]]
  | ch :: rest =>
    let r := splitAux c rest
    if ch = c then [] :: r
    else (ch :: r.headD []) :: r.tail

/-- Models JavaScript `s.split(c)` for a one-character separator. -/
def splitChar (c : Char) (s : String) : List String :=
  (splitAux c s.data).map (fun l => String.mk l)

/-- Models JavaScript truthiness of an optional string: `undefined` and the
empty string are falsy, every other string is truthy. -/
def jsTruthy : Option String → Bool
  | none => false
  | some s => !(s == "")

/-- Models JavaScript `a || b` where `a` is an optional string. -/
def jsOr (s : Option String) (d : String) : String :=
  match s with
  | some v => if v == "" then d else v
  | none => d

/-- Models Node's `path.join(a, b)` for the path shapes used by the pipeline:
an empty second component leaves the first unchanged (`path.join(t, '') = t`). -/
def pathJoin (a b : String) : String :=
  if b == "" then a else if a == "" then b else a ++ "/" ++ b

/-- Models JavaScript `s.split(c).pop()`: the last separated segment. -/
def lastSeg (c : Char) (s : String) : String :=
  (splitChar c s).getLastD ""

/-- Source: `src/utils/index.js` lines 65-83 (`getDownloadUrl`).  The version
is appended to the name before any shape check; a two-segment name produces a
GitHub archive URL; everything else falls through to the registry URL without
a `.zip` suffix. -/
def Utils.getDownloadUrl (packageName : String) (packageVersion : Option String)
    (type : String) : String :=
  let pn := if jsTruthy packageVersion
    then packageName ++ "." ++ packageVersion.getD "" else packageName
  if strStarts pn "http://" || strStarts pn "https://" then pn
  else if (splitChar '/' pn).length = 2 then
    let user := (splitChar '/' pn).headD ""
    let repo := (splitChar '/' pn).getLastD ""
    "https://github.com/" ++ user ++ "/" ++ repo ++ "/archive/refs/" ++
      (if jsTruthy packageVersion then "tags/" ++ packageVersion.getD ""
       else "heads/master")
  else "https://downloads.wordpress.org/" ++ type ++ "/" ++ pn

/-- Source: `src/lib/utils/index.js` lines 111-123 (`getDownloadUrl`).  The
absolute-URL check happens before the version is appended; there is no VCS
branch; the registry URL always carries a `.zip` suffix. -/
def LibUtils.getDownloadUrl (packageName : String) (packageVersion : Option String)
    (type : String) : String :=
  if strStarts packageName "http://" || strStarts packageName "https://" then
    packageName
  else
    let pn := if jsTruthy packageVersion
      then packageName ++ "." ++ packageVersion.getD "" else packageName
    "https://downloads.wordpress.org/" ++ type ++ "/" ++ pn ++ ".zip"

/-- Source: `src/lib/utils/index.js` lines 95-101 (`getWordPressDownloadUrl`). -/
def LibUtils.getWordPressDownloadUrl (version : String) (language : Option String) :
    String :=
  if jsTruthy language && !(strStarts (language.getD "") "en") then
    "https://" ++ String.mk (((language.getD "").data.take 2).map Char.toLower) ++
      ".wordpress.org/wordpress-" ++ version ++ "-" ++ language.getD "" ++ ".zip"
  else
    "https://wordpress.org/wordpress-" ++ version ++ ".zip"

example : Utils.getDownloadUrl "owner/repo" (some "v2") "plugins" =
    "https://github.com/owner/repo.v2/archive/refs/tags/v2" := by decide

example : Utils.getDownloadUrl "owner/repo" none "plugins" =
    "https://github.com/owner/repo/archive/refs/heads/master" := by decide

example : Utils.getDownloadUrl "plain-name" (some "1.2") "plugins" =
    "https://downloads.wordpress.org/plugins/plain-name.1.2" := by decide

example : LibUtils.getDownloadUrl "plain-name" (some "1.2") "plugins" =
    "https://downloads.wordpress.org/plugins/plain-name.1.2.zip" := by decide

example : Utils.getDownloadUrl "a/b/c" none "plugins" =
    "https://downloads.wordpress.org/plugins/a/b/c" := by decide

/-- Joins path segments with `/`, modelling `parts.join('/')`. -/
def joinSlash : List String → String
  | [] => ""
  | [x] => x
  | x :: xs => x ++ "/" ++ joinSlash xs

/-- Models the inner loop of `extractZip`'s `onEntry` callback
(`src/lib/utils/fs.js` lines 108-113): the index of the first `i` with
`commonRootPath.split('/')[i] !== entryPathParts[i]`, scanning
`i = 0 .. entryPathParts.length - 1`. -/
def firstMismatchAux (rootParts : List String) : List String → Nat → Option Nat
  | [], _ => none
  | p :: rest, i =>
    if rootParts.get? i = some p then firstMismatchAux rootParts rest (i + 1)
    else some i

/-- Entry point of the mismatch scan at index 0. -/
def firstMismatch (rootParts entryParts : List String) : Option Nat :=
  firstMismatchAux rootParts entryParts 0

/-- The first path segment of an entry name, `entry.fileName.split('/')[0]`. -/
def firstSegment (e : String) : String := (splitChar '/' e).headD ""

/-- Source: the `onEntry` callback of `extractZip`
(`src/lib/utils/fs.js` lines 100-116).  A falsy (empty) accumulator is
(re-)initialised from the entry's first segment; otherwise the accumulator is
truncated at the first mismatching segment index. -/
def updateCommonRoot (commonRootPath : String) (fileName : String) : String :=
  let entryPathParts := splitChar '/' fileName
  if commonRootPath == "" then entryPathParts.headD ""
  else
    let rootParts := splitChar '/' commonRootPath
    match firstMismatch rootParts entryPathParts with
    | none => commonRootPath
    | some i => joinSlash (rootParts.take i)

/-- Source: `extractZip` (`src/lib/utils/fs.js` lines 94-127): the
`commonRootPath` accumulated over the archive's entries, in order, starting
from the empty string, is returned as the root entry name. -/
def extractZipRoot (entries : List String) : String :=
  entries.foldl updateCommonRoot ""

/-- Modelled from the spec: the longest shared leading segment sequence of two
segment lists ("shrink the common prefix to the longest shared leading segment
sequence"). -/
def specSegLcp : List String → List String → List String
  | x :: xs, y :: ys => if x = y then x :: specSegLcp xs ys else []
  | _, _ => []

/-- Modelled from the spec: the running common segment sequence over all entry
paths, initialised from the first entry's path segments and shrunk by each
subsequent entry. -/
def specCommonSegs : List String → List String
  | [] => []
  | e :: es => es.foldl (fun acc x => specSegLcp acc (splitChar '/' x)) (splitChar '/' e)

/-- Modelled from the spec: the first segment of the longest common leading
segment sequence over all entry paths; empty when there is none. -/
def specRootEntryName (entries : List String) : String :=
  (specCommonSegs entries).headD ""

example : extractZipRoot ["foo-bar-1.0/a.php", "foo-bar-1.0/b/c.php"] = "foo-bar-1.0" := by
  decide
example : extractZipRoot ["a/x", "b/y"] = "" := by decide
example : extractZipRoot ["a/x", "b/y", "c/z"] = "c" := by decide
example : specRootEntryName ["a/x", "b/y", "c/z"] = "" := by decide
example : extractZipRoot [] = "" := by decide

/-- An HTTP response as observed by `downloadFile`: status code, optional
`Location` header, body, and status message. -/
structure HttpResponse where
  statusCode : Nat
  location : Option String
  body : String
  statusMessage : String
deriving DecidableEq

/-- The redirect condition of `downloadFile` (`src/lib/utils/fs.js` line 67):
`code > 300 && code < 400 && !!response.headers.location`. -/
def isRedirectStep (r : HttpResponse) : Bool :=
  decide (300 < r.statusCode) && decide (r.statusCode < 400) && jsTruthy r.location

/-- Association-list lookup for the modelled file system of written files. -/
def lookupFile (files : List (String × String)) (k : String) : Option String :=
  match files with
  | [] => none
  | (k', v) :: rest => if k' == k then some v else lookupFile rest k

/-- Source: `downloadFile` (`src/lib/utils/fs.js` lines 50-83).  The network
is an oracle `resp` from URL to response.  The file system is a list of
(path, content) pairs; an existing target file skips the download.  A status
`>= 400` rejects with the status message; a status with
`300 < code < 400` and a truthy `Location` recurses on the new URL with the
same target; otherwise the body is written to the target.  The fuel bounds
the recursion depth (the JavaScript recursion is unbounded). -/
def downloadFile (resp : String → HttpResponse) :
    Nat → String → String → List (String × String) →
    List (String × String) × Except String Unit
  | 0, _, _, files => (files, .error "maximum call stack size exceeded")
  | Nat.succ fuel, url, targetFile, files =>
    if (lookupFile files targetFile).isSome then (files, .ok ())
    else
      let r := resp url
      if 400 ≤ r.statusCode then (files, .error r.statusMessage)
      else if isRedirectStep r then
        downloadFile resp fuel (r.location.getD "") targetFile files
      else ((targetFile, r.body) :: files, .ok ())

/-- A redirect chain under the oracle `resp`: `RedirectsTo resp u chain t`
holds when following the code's redirect condition from `u` through the
intermediate URLs in `chain` ends at `t`. -/
def RedirectsTo (resp : String → HttpResponse) : String → List String → String → Prop
  | u, [], t => u = t
  | u, v :: rest, t =>
    (isRedirectStep (resp u) = true ∧ (resp u).location.getD "" = v) ∧
      RedirectsTo resp v rest t

/-- Observable steps of a package installation run. -/
inductive Ev
  | mkTempDir (dir : String)
  | skip (dir : String)
  | fetch (url : String) (dest : String)
  | extractE (zip : String) (dir : String)
  | rename (src : String) (dest : String)
  | cloneE (url : String) (dest : String)
  | npm (dir : String)
  | composerE (dir : String)
  | logError (pkg : String)
  | configSetup
  | cmd (c : String)
  | cmdFailed (c : String)
  | cleanupE (dir : String)
deriving DecidableEq

/-- Environment oracles for the effectful collaborators of a package unit:
the transport outcome per URL, archive entries per zip path, clone outcome
per URL, whether a folder carries a dependency manifest, the secondary-build
outcome per folder, the per-command outcome of post-install commands, and
whether the WP-CLI binary is actually installed on the host. -/
structure World where
  download : String → Except String Unit
  extractEntries : String → Except String (List String)
  clone : String → Except String Unit
  hasPackageJson : String → Bool
  npm : String → Except String Unit
  cmdRun : String → Except String (String × String)
  wpCliAvailable : Bool

/-- The modelled file system: the set of existing paths. -/
structure St where
  fs : List String
deriving DecidableEq

/-- Models `fs.existsSync`. -/
def hasPath (st : St) (p : String) : Bool := st.fs.contains p

/-- Adds a path if absent (creating a file or directory). -/
def addPath (st : St) (p : String) : St :=
  if hasPath st p then st else ⟨p :: st.fs⟩

/-- How `fs.renameSync(src, dest)` moves one existing path: the path itself
and every path below it are rebased onto `dest`. -/
def movePath (src dest p : String) : String :=
  if p == src then dest
  else if strStarts p (src ++ "/") then dest ++ String.mk (p.data.drop src.data.length)
  else p

/-- Models `renameFolder` / `fs.renameSync` on the path set. -/
def renameFs (st : St) (src dest : String) : St :=
  ⟨st.fs.map (movePath src dest)⟩

/-- Models `fs.rmSync(dir, { recursive: true })` inside `cleanup`
(`src/lib/utils/fs.js` lines 23-31). -/
def cleanupFs (st : St) (dir : String) : St :=
  ⟨st.fs.filter (fun p => !(p == dir || strStarts p (dir ++ "/")))⟩

/-- Source: `Package.execDownload` (`src/lib/Package.js` lines 59-69):
join the temp dir and the file name, download (with `downloadFile`'s
skip-if-present check), then extract the zip into the temp dir, returning the
detected common root.  Extraction materialises the top-level segment of every
entry under the temp dir. -/
def execDownload (w : World) (tempDir filename downloadUrl : String) (st : St) :
    St × List Ev × Except String String :=
  let zipFilePath := pathJoin tempDir filename
  let step2 := fun (st1 : St) (evs1 : List Ev) =>
    match w.extractEntries zipFilePath with
    | .error e => (st1, evs1 ++ [Ev.extractE zipFilePath tempDir], Except.error e)
    | .ok entries =>
      let st2 := entries.foldl (fun s e => addPath s (pathJoin tempDir (firstSegment e))) st1
      (st2, evs1 ++ [Ev.extractE zipFilePath tempDir], Except.ok (extractZipRoot entries))
  if hasPath st zipFilePath then step2 st []
  else
    match w.download downloadUrl with
    | .error e => (st, [Ev.fetch downloadUrl zipFilePath], Except.error e)
    | .ok _ => step2 (addPath st zipFilePath) [Ev.fetch downloadUrl zipFilePath]

/-- Source: the tail of `Package.downloadPackage` (`src/lib/Package.js`
lines 117-125): when the package URL is truthy, run `installNpmPackages`
(which silently skips when no `package.json` is present and whose subprocess
failure rejects) and then `installComposer` (whose `exec` is not awaited
through a promise, so it cannot reject). -/
def afterDownload (w : World) (name packageUrl pkgFolder : String) (st : St)
    (evs : List Ev) : St × List Ev × Bool :=
  if packageUrl == "" then (st, evs, true)
  else if w.hasPackageJson pkgFolder then
    match w.npm pkgFolder with
    | .error _ => (st, evs ++ [Ev.npm pkgFolder, Ev.logError name], false)
    | .ok _ => (st, evs ++ [Ev.npm pkgFolder, Ev.composerE pkgFolder], true)
  else (st, evs ++ [Ev.composerE pkgFolder], true)

/-- Source: `Package.downloadPackage` (`src/lib/Package.js` lines 96-129).
The destination check happens first; a URL whose last dot-separated segment
is `git` is cloned into `destFolder/name`; any other URL is downloaded and
extracted into the temp dir and the folder `path.join(tempDir, extractedPath)`
is renamed into the destination.  The surrounding `try`/`catch` turns every
failure into a logged, non-propagating completion (`Bool` result `false`). -/
def downloadPackage (w : World) (tempDir destFolder name packageUrl : String)
    (st : St) : St × List Ev × Bool :=
  let pkgFolder := pathJoin destFolder name
  if hasPath st pkgFolder then (st, [Ev.skip pkgFolder], true)
  else if lastSeg '.' packageUrl == "git" then
    match w.clone packageUrl with
    | .error _ =>
      (st, [Ev.cloneE packageUrl (destFolder ++ "/" ++ name), Ev.logError name], false)
    | .ok _ =>
      afterDownload w name packageUrl pkgFolder
        (addPath st (destFolder ++ "/" ++ name))
        [Ev.cloneE packageUrl (destFolder ++ "/" ++ name)]
  else
    match execDownload w tempDir (name ++ ".zip") packageUrl st with
    | (st1, evs, .error _) => (st1, evs ++ [Ev.logError name], false)
    | (st1, evs, .ok extractedPath) =>
      let src := pathJoin tempDir extractedPath
      if hasPath st1 src then
        afterDownload w name packageUrl pkgFolder (renameFs st1 src pkgFolder)
          (evs ++ [Ev.rename src pkgFolder])
      else (st1, evs ++ [Ev.rename src pkgFolder, Ev.logError name], false)

/-- One installable item as declared in the manifest. -/
structure PkgSpec where
  name : String
  version : Option String
  source : Option String
deriving DecidableEq

/-- Source: `Package.install` (`src/lib/Package.js` lines 136-143):
`source || getDownloadUrl(name, version, this.packageType)` then
`downloadPackage`. -/
def Package.install (w : World) (tempDir destFolder typeStr : String)
    (pkg : PkgSpec) (st : St) : St × List Ev × Bool :=
  let packageUrl := jsOr pkg.source (LibUtils.getDownloadUrl pkg.name pkg.version typeStr)
  downloadPackage w tempDir destFolder pkg.name packageUrl st

/-- The resolved install paths (`WPMMpaths`). -/
structure Paths where
  rootFolder : String
  tempDir : String
  baseFolder : String
  pluginsFolder : String
  themeFolder : String

/-- Source: `Package.getDestFolder` (`src/lib/Package.js` lines 43-50). -/
def getDestFolder (paths : Paths) (packageType : String) : String :=
  if packageType == "plugin" then paths.pluginsFolder
  else if packageType == "theme" then paths.themeFolder
  else paths.baseFolder

/-- The core descriptor of the manifest (`config.wordpress`). -/
structure WpCfg where
  name : String
  version : String
  language : Option String
deriving DecidableEq

/-- Source: `WpPackage.install` = `installWordPress` followed by
`setupWordPressConfig`.  `installWordPress` skips when the destination
exists, otherwise downloads `wordpress-<version>.zip` into the temp dir,
extracts, and renames the `wordpress` folder into the destination; failures
are caught and logged.  The configuration rewrite (`setupWordPressConfig`) is
out of the specified core and is modelled as a single step. -/
def WpPackage.install (w : World) (paths : Paths) (wp : WpCfg) (st : St) :
    St × List Ev :=
  let downloadUrl := LibUtils.getWordPressDownloadUrl wp.version wp.language
  let destinationPath := pathJoin paths.rootFolder wp.name
  let (st1, evs) :=
    if hasPath st destinationPath then (st, [Ev.skip destinationPath])
    else
      match execDownload w paths.tempDir ("wordpress-" ++ wp.version ++ ".zip")
          downloadUrl st with
      | (st', evs', .error _) => (st', evs' ++ [Ev.logError wp.name])
      | (st', evs', .ok _) =>
        let src := pathJoin paths.tempDir "wordpress"
        if hasPath st' src then
          (renameFs st' src destinationPath, evs' ++ [Ev.rename src destinationPath])
        else (st', evs' ++ [Ev.rename src destinationPath, Ev.logError wp.name])
  (st1, evs ++ [Ev.configSetup])

/-- The role a trace step belongs to. -/
inductive Role
  | core
  | plugin
  | theme
  | post
  | orch
deriving DecidableEq

/-- A trace step: the role and package it belongs to, and the step itself. -/
structure Act where
  role : Role
  pkg : String
  ev : Ev
deriving DecidableEq

/-- Tags a package-local event list with its role and package name. -/
def tagActs (r : Role) (n : String) (evs : List Ev) : List Act :=
  evs.map (fun e => ⟨r, n, e⟩)

/-- The manifest fields consumed by `Installer.installPackages`. -/
structure Config where
  wordpress : Option WpCfg
  plugins : Option (List PkgSpec)
  themes : Option (List PkgSpec)
  postInstall : Option (List String)

/-- Models the un-awaited call `isWPCLIAvailable()` in the guard at
`src/lib/Installer.js` line 65: the `async` function returns a `Promise`
object, which is truthy no matter whether WP-CLI is actually available. -/
def isWPCLIAvailableCallTruthy (_w : World) : Bool := true

/-- Models `postInstall && postInstall.length > 0`: an absent field is falsy,
an array is truthy, then its length is compared. -/
def postListGuard : Option (List String) → Bool
  | none => false
  | some l => decide (0 < l.length)

/-- Source: `runPostInstallCommands` (`src/lib/utils/index.js` lines 195-211):
a `for..of` loop attempting every command in declaration order, each wrapped
in its own `try`/`catch`, so a failing command is logged and the loop
continues. -/
def runPostInstallCommands (w : World) (commands : List String) : List Ev :=
  commands.flatMap (fun c =>
    match w.cmdRun c with
    | .error _ => [Ev.cmd c, Ev.cmdFailed c]
    | .ok _ => [Ev.cmd c])

/-- The plugin and theme units constructed by `installPackages`, in
construction order: plugins first, then themes. -/
def unitsOf (cfg : Config) : List (Role × PkgSpec) :=
  (match cfg.plugins with
   | some ps => ps.map (fun p => (Role.plugin, p))
   | none => []) ++
  (match cfg.themes with
   | some ts => ts.map (fun t => (Role.theme, t))
   | none => [])

/-- The package-type string handed to a unit for its role. -/
def roleTypeString : Role → String
  | Role.plugin => "plugin"
  | Role.theme => "theme"
  | _ => "wordpress"

/-- Runs the plugin and theme units over the shared state, collecting each
unit's tagged trace.  The units write only to name-derived paths, so the
cooperative interleavings of the event loop all produce this path set; the
per-unit traces are interleaved by `IsInstallTrace` below. -/
def runUnitsGo (w : World) (paths : Paths) :
    List (Role × PkgSpec) → St → List (List Act) → St × List (List Act)
  | [], st, traces => (st, traces)
  | u :: rest, st, traces =>
    let typeStr := roleTypeString u.1
    let destFolder := getDestFolder paths typeStr
    let r := Package.install w paths.tempDir destFolder typeStr u.2 st
    runUnitsGo w paths rest r.1 (traces ++ [tagActs u.1 u.2.name r.2.1])

/-- The unit runs started from an empty trace accumulator. -/
def runUnits (w : World) (paths : Paths) (units : List (Role × PkgSpec))
    (st : St) : St × List (List Act) :=
  runUnitsGo w paths units st []

/-- The decomposed result of one `installPackages` run: final state, the
sequential opening segment (temp-dir creation and the awaited core unit), the
per-unit traces run concurrently, and the closing post-install segment. -/
structure RunResult where
  st : St
  preActs : List Act
  unitTraces : List (List Act)
  postActs : List Act

/-- Source: `Installer.installPackages` (`src/lib/Installer.js` lines 32-72):
create the temp dir; if a core system is declared, run its unit to completion
(`await wp.install()`) before any other unit is constructed; construct and
start all plugin and theme units and await them all (`Promise.all`); then run
the post-install commands when the guard holds. -/
def Installer.installPackages (w : World) (cfg : Config) (paths : Paths)
    (st0 : St) : RunResult :=
  let st1 := addPath st0 paths.tempDir
  let mkActs : List Act := [⟨Role.orch, "", Ev.mkTempDir paths.tempDir⟩]
  let (st2, coreActs) :=
    match cfg.wordpress with
    | some wp =>
      let r := WpPackage.install w paths wp st1
      (r.1, tagActs Role.core wp.name r.2)
    | none => (st1, [])
  let (st3, unitTraces) := runUnits w paths (unitsOf cfg) st2
  let postActs :=
    if isWPCLIAvailableCallTruthy w && postListGuard cfg.postInstall then
      tagActs Role.post "" (runPostInstallCommands w (cfg.postInstall.getD []))
    else []
  ⟨st3, mkActs ++ coreActs, unitTraces, postActs⟩

/-- Source: `Installer.run` (`src/lib/Installer.js` lines 79-82):
`installPackages` then `cleanup(tempDir)`. -/
def Installer.run (w : World) (cfg : Config) (paths : Paths) (st0 : St) :
    St × RunResult :=
  let r := Installer.installPackages w cfg paths st0
  (cleanupFs r.st paths.tempDir, r)

/-- An interleaving of two lists, modelling the cooperative scheduling of two
concurrently awaited promise chains. -/
inductive Interleave : List Act → List Act → List Act → Prop
  | nil : Interleave [] [] []
  | left {x xs ys zs} : Interleave xs ys zs → Interleave (x :: xs) ys (x :: zs)
  | right {y xs ys zs} : Interleave xs ys zs → Interleave xs (y :: ys) (y :: zs)

/-- An interleaving of a family of lists. -/
inductive MergeOf : List (List Act) → List Act → Prop
  | nil : MergeOf [] []
  | cons {l ls rest m} : Interleave l rest m → MergeOf ls rest → MergeOf (l :: ls) m

/-- The traces `installPackages` can produce: the sequential opening segment,
then any interleaving of the concurrently running unit traces, then the
post-install segment. -/
def IsInstallTrace (w : World) (cfg : Config) (paths : Paths) (st0 : St)
    (t : List Act) : Prop :=
  ∃ m, MergeOf (Installer.installPackages w cfg paths st0).unitTraces m ∧
    t = (Installer.installPackages w cfg paths st0).preActs ++ m ++
        (Installer.installPackages w cfg paths st0).postActs

/-- Default trace step used with `List.getD` in ordering statements. -/
def dAct : Act := ⟨Role.orch, "", Ev.configSetup⟩

/-- Every core step occurs strictly before every plugin or theme step. -/
def CoreFirst (t : List Act) : Prop :=
  ∀ i j, i < t.length → j < t.length →
    (t.getD i dAct).role = Role.core →
    ((t.getD j dAct).role = Role.plugin ∨ (t.getD j dAct).role = Role.theme) →
    i < j

/-- Every plugin or theme step occurs strictly before every post-install
command step. -/
def UnitsBeforePost (t : List Act) : Prop :=
  ∀ i j, i < t.length → j < t.length →
    ((t.getD i dAct).role = Role.plugin ∨ (t.getD i dAct).role = Role.theme) →
    (t.getD j dAct).role = Role.post →
    i < j

/-- The steps of the temp-download / extract / relocate pipeline. -/
def isTransportEv : Ev → Bool
  | Ev.fetch _ _ => true
  | Ev.extractE _ _ => true
  | Ev.rename _ _ => true
  | _ => false

/-- Concrete install paths used by the scenario theorems. -/
def paths0 : Paths := ⟨"root", "tmp", "wp", "wp/plugins", "wp/themes"⟩

/-- A world where every collaborator succeeds and archives carry the single
root folder `pkgroot`. -/
def wOk : World :=
  ⟨fun _ => .ok (), fun _ => .ok ["pkgroot/index.php"], fun _ => .ok (),
   fun _ => false, fun _ => .ok (), fun _ => .ok ("", ""), true⟩

/-- A world where the plugin `alpha`'s download fails with 404 while `beta`'s
succeeds and extracts to the root folder `beta`. -/
def w5 : World :=
  { wOk with
    download := fun u =>
      if u == "https://downloads.wordpress.org/plugin/alpha.zip" then
        .error "Not Found"
      else .ok ()
    extractEntries := fun _ => .ok ["beta/readme.txt"] }

/-- A world whose archives contain entries `a/x` and `b/y`, sharing no common
first segment, so extraction reports an empty root. -/
def wEmptyRoot : World :=
  { wOk with extractEntries := fun _ => .ok ["a/x", "b/y"] }

/-- A world where the plugin `alpha`'s download fails with an arbitrary
transport error `e` while everything else succeeds; archives extract to the
root folder `beta`. -/
def mkW5 (e : String) : World :=
  { wOk with
    download := fun u =>
      if u == "https://downloads.wordpress.org/plugin/alpha.zip" then .error e
      else .ok ()
    extractEntries := fun _ => .ok ["beta/readme.txt"] }

/-- A world where the plugin `alpha`'s archive fails to extract with an
arbitrary error `e` while everything else succeeds. -/
def mkW5x (e : String) : World :=
  { wOk with
    extractEntries := fun z =>
      if z == "tmp/alpha.zip" then .error e
      else .ok ["beta/readme.txt"] }

/-- A world where every `git clone` subprocess fails with an arbitrary error
`e` while everything else succeeds; archives extract to the root folder
`beta`. -/
def mkW5c (e : String) : World :=
  { wOk with
    clone := fun _ => .error e
    extractEntries := fun _ => .ok ["beta/readme.txt"] }

/-- A world where the plugin `alpha` ships a dependency manifest and its
secondary build (`npm`) fails with an arbitrary error `e`, while everything
else succeeds; `alpha`'s archive extracts to the root folder `alpha` and
`beta`'s to `beta`. -/
def mkW5n (e : String) : World :=
  { wOk with
    extractEntries := fun z =>
      if z == "tmp/alpha.zip" then .ok ["alpha/package.json"]
      else .ok ["beta/readme.txt"]
    hasPackageJson := fun d => d == "wp/plugins/alpha"
    npm := fun d =>
      if d == "wp/plugins/alpha" then .error e else .ok () }

/-- A world without WP-CLI where the first post-install command fails. -/
def w10 : World :=
  { wOk with
    cmdRun := fun c =>
      if c == "wp plugin activate x" then .error "spawn wp ENOENT"
      else .ok ("", "")
    wpCliAvailable := false }

/-- A response oracle with the redirect chain a → b → c → d and a 404
everywhere else. -/
def respChain : String → HttpResponse := fun u =>
  if u == "a" then ⟨302, some "b", "A", "Found"⟩
  else if u == "b" then ⟨301, some "c", "B", "Moved Permanently"⟩
  else if u == "c" then ⟨307, some "d", "C", "Temporary Redirect"⟩
  else if u == "d" then ⟨200, none, "FINAL", "OK"⟩
  else ⟨404, none, "", "Not Found"⟩

/-- A response oracle answering status 300 with a `Location` header at `a`
and a terminal 200 at every other URL. -/
def resp300 : String → HttpResponse := fun u =>
  if u == "a" then ⟨300, some "b", "bodyA", "Multiple Choices"⟩
  else ⟨200, none, "bodyB", "OK"⟩

/-- The plugin `alpha` with no version and no explicit source. -/
def pAlpha : PkgSpec := ⟨"alpha", none, none⟩

/-- The plugin `beta` with no version and no explicit source. -/
def pBeta : PkgSpec := ⟨"beta", none, none⟩

/-- A manifest declaring only the two plugins `alpha` and `beta`. -/
def cfg5 : Config := ⟨none, some [pAlpha, pBeta], none, none⟩

/-- The plugin `alpha` declared with an explicit `.git` source. -/
def pAlphaGit : PkgSpec := ⟨"alpha", none, some "https://github.com/x/alpha.git"⟩

/-- A manifest declaring the `.git`-sourced plugin `alpha` and the registry
plugin `beta`. -/
def cfg5c : Config := ⟨none, some [pAlphaGit, pBeta], none, none⟩

/-- A manifest declaring only two post-install commands. -/
def cfg10 : Config :=
  ⟨none, none, none, some ["wp plugin activate x", "wp cache flush"]⟩

/-- A manifest with a core descriptor, two plugins, and one post-install
command. -/
def cfgC4 : Config :=
  ⟨some ⟨"site", "6.4", none⟩, some [pAlpha, pBeta], none, some ["wp cache flush"]⟩

/-- The canonical trace of the `cfgC4` run with every unit trace appended in
construction order. -/
def tC4 : List Act :=
  (Installer.installPackages wOk cfgC4 paths0 ⟨[]⟩).preActs ++
    (Installer.installPackages wOk cfgC4 paths0 ⟨[]⟩).unitTraces.flatten ++
    (Installer.installPackages wOk cfgC4 paths0 ⟨[]⟩).postActs

lemma splitAux_ne_nil (c : Char) (l : List Char) : splitAux c l ≠ [] := by
  cases l with
  | nil => simp [splitAux]
  | cons ch rest => simp only [splitAux]; split <;> simp

lemma mem_splitAux_no_sep (c : Char) :
    ∀ (l : List Char) (seg : List Char), seg ∈ splitAux c l → c ∉ seg := by
  intro l
  induction l with
  | nil =>
    intro seg h
    simp [splitAux] at h
    subst h; simp
  | cons ch rest ih =>
    intro seg h
    simp only [splitAux] at h
    by_cases hc : ch = c
    · rw [if_pos hc] at h
      rcases List.mem_cons.mp h with h1 | h2
      · subst h1; simp
      · exact ih seg h2
    · rw [if_neg hc] at h
      rcases List.mem_cons.mp h with h1 | h2
      · subst h1
        intro hmem
        rcases List.mem_cons.mp hmem with h3 | h4
        · exact hc h3.symm
        · obtain ⟨a, as, he⟩ := List.exists_cons_of_ne_nil (splitAux_ne_nil c rest)
          rw [he] at h4
          simp only [List.headD_cons] at h4
          exact ih a (by rw [he]; exact List.mem_cons_self a as) h4
      · exact ih seg (List.mem_of_mem_tail h2)

lemma splitAux_no_sep (c : Char) :
    ∀ l : List Char, c ∉ l → splitAux c l = [l] := by
  intro l
  induction l with
  | nil => intro; rfl
  | cons ch rest ih =>
    intro h
    have hc : ch ≠ c := by
      intro he; exact h (he ▸ List.mem_cons_self ch rest)
    have hr : c ∉ rest := fun hm => h (List.mem_cons_of_mem ch hm)
    simp only [splitAux]
    rw [if_neg hc, ih hr]
    rfl

lemma splitChar_no_sep (s : String) (h : '/' ∉ s.data) : splitChar '/' s = [s] := by
  unfold splitChar
  rw [splitAux_no_sep '/' s.data h]
  rfl

lemma firstSegment_no_slash (e : String) : '/' ∉ (firstSegment e).data := by
  unfold firstSegment splitChar
  obtain ⟨a, as, he⟩ := List.exists_cons_of_ne_nil (splitAux_ne_nil '/' e.data)
  rw [he]
  simp only [List.map_cons, List.headD_cons]
  exact mem_splitAux_no_sep '/' e.data a (by rw [he]; exact List.mem_cons_self a as)

lemma splitChar_ne_nil (c : Char) (s : String) : splitChar c s ≠ [] := by
  unfold splitChar
  simp [splitAux_ne_nil]

lemma updateCommonRoot_init (e : String) : updateCommonRoot "" e = firstSegment e := rfl

lemma updateCommonRoot_keep (s e : String) (hs : s ≠ "")
    (hnoslash : '/' ∉ s.data) (hfs : firstSegment e = s) :
    updateCommonRoot s e = s := by
  unfold updateCommonRoot
  have hbeq : (s == "") = false := by simp [hs]
  rw [hbeq]
  simp only [Bool.false_eq_true, if_false]
  rw [splitChar_no_sep s hnoslash]
  obtain ⟨a, as, he⟩ := List.exists_cons_of_ne_nil (splitChar_ne_nil '/' e)
  have ha : a = s := by
    have := hfs
    unfold firstSegment at this
    rw [he] at this
    simpa using this
  rw [he, ha]
  unfold firstMismatch firstMismatchAux
  simp only [List.get?_cons_zero, if_pos rfl]
  cases as with
  | nil => rfl
  | cons p rest =>
    simp only [firstMismatchAux, List.get?_cons_succ, List.get?_nil]
    rfl

lemma foldl_updateCommonRoot_keep :
    ∀ (es : List String) (s : String), s ≠ "" → '/' ∉ s.data →
    (∀ e ∈ es, firstSegment e = s) → es.foldl updateCommonRoot s = s := by
  intro es
  induction es with
  | nil => intro s _ _ _; rfl
  | cons e rest ih =>
    intro s hs hnoslash hall
    rw [List.foldl_cons, updateCommonRoot_keep s e hs hnoslash (hall e (List.mem_cons_self e rest))]
    exact ih s hs hnoslash (fun x hx => hall x (List.mem_cons_of_mem e hx))

/-- C1 (amended): `extractZip` folds the entries through a single-segment
accumulator: an empty accumulator is (re-)initialised from the entry's first
segment, a non-empty accumulator is kept when it equals the entry's first
segment and emptied on a first-segment mismatch.  Hence an empty archive
yields an empty root, the two-entry archive `a/x`, `b/y` yields an empty root
without throwing, and an archive whose entries all share the non-empty first
segment `s` yields `s` (the first segment of the longest common leading
segment sequence).  The original claim's universal statement — the root is
always the first segment of the longest common prefix, only ever shrunk — is
false because an emptied accumulator is re-initialised (see the
counterexample). -/
theorem c1_extract_root_amended :
    extractZipRoot [] = "" ∧
    extractZipRoot ["a/x", "b/y"] = "" ∧
    ∀ (es : List String) (s : String), s ≠ "" → es ≠ [] →
      (∀ e ∈ es, firstSegment e = s) → extractZipRoot es = s := by
  refine ⟨rfl, by decide, ?_⟩
  intro es s hs hne hall
  cases es with
  | nil => exact absurd rfl hne
  | cons e rest =>
    have h1 : firstSegment e = s := hall e (List.mem_cons_self e rest)
    have hnoslash : '/' ∉ s.data := h1 ▸ firstSegment_no_slash e
    unfold extractZipRoot
    rw [List.foldl_cons, updateCommonRoot_init, h1]
    exact foldl_updateCommonRoot_keep rest s hs hnoslash
      (fun x hx => hall x (List.mem_cons_of_mem e hx))

/-- C1 witness: an archive wrapped in the single root folder `foo-bar-1.0`
returns that folder name. -/
theorem c1_witness :
    ("foo-bar-1.0" : String) ≠ "" ∧
    (["foo-bar-1.0/a.php", "foo-bar-1.0/b.php"] : List String) ≠ [] ∧
    extractZipRoot ["foo-bar-1.0/a.php", "foo-bar-1.0/b.php"] = "foo-bar-1.0" := by
  refine ⟨by decide, by decide, ?_⟩
  exact c1_extract_root_amended.2.2 ["foo-bar-1.0/a.php", "foo-bar-1.0/b.php"]
    "foo-bar-1.0" (by decide) (by decide) (by decide)

/-- C1 counterexample: for the archive `a/x`, `b/y`, `c/z` the entries share
no common first segment, so the claim demands an empty root, but the code
returns `c`: processing `b/y` empties the accumulator and processing `c/z`
re-initialises it. -/
theorem c1_counterexample :
    extractZipRoot ["a/x", "b/y", "c/z"] = "c" ∧
    specRootEntryName ["a/x", "b/y", "c/z"] = "" ∧
    ("c" : String) ≠ "" := by decide

/-- C2 (amended): in the `src/utils/index.js` draft the version is appended
to the name before any check, so an absolute URL is returned verbatim only
when no version is given, `owner/repo` with version `v2` yields
`https://github.com/owner/repo.v2/archive/refs/tags/v2` (targeting tag `v2`
but with the version also appended to the repo segment), `owner/repo` without
a version targets `heads/master`, and the registry fallback appends no `.zip`
suffix.  In the `src/lib/utils/index.js` draft the absolute-URL check comes
first (verbatim even with a version), there is no VCS branch at all, and the
registry URL carries the `.zip` suffix with the version appended only when
present. -/
theorem c2_getDownloadUrl_amended :
    (∀ name type, (strStarts name "http://" || strStarts name "https://") = true →
      Utils.getDownloadUrl name none type = name) ∧
    (∀ name v type, (strStarts name "http://" || strStarts name "https://") = true →
      LibUtils.getDownloadUrl name v type = name) ∧
    Utils.getDownloadUrl "owner/repo" (some "v2") "plugins" =
      "https://github.com/owner/repo.v2/archive/refs/tags/v2" ∧
    Utils.getDownloadUrl "owner/repo" none "plugins" =
      "https://github.com/owner/repo/archive/refs/heads/master" ∧
    Utils.getDownloadUrl "plain-name" (some "1.2") "plugins" =
      "https://downloads.wordpress.org/plugins/plain-name.1.2" ∧
    LibUtils.getDownloadUrl "plain-name" (some "1.2") "plugins" =
      "https://downloads.wordpress.org/plugins/plain-name.1.2.zip" ∧
    LibUtils.getDownloadUrl "plain-name" none "plugins" =
      "https://downloads.wordpress.org/plugins/plain-name.zip" := by
  refine ⟨?_, ?_, by decide, by decide, by decide, by decide, by decide⟩
  · intro name type h
    unfold Utils.getDownloadUrl
    simp [jsTruthy, h]
  · intro name v type h
    unfold LibUtils.getDownloadUrl
    simp [h]

/-- C2 witness: absolute URLs pass through both resolver drafts. -/
theorem c2_witness :
    (strStarts "http://x.com/p.zip" "http://" ||
      strStarts "http://x.com/p.zip" "https://") = true ∧
    Utils.getDownloadUrl "http://x.com/p.zip" none "plugins" = "http://x.com/p.zip" ∧
    LibUtils.getDownloadUrl "https://x.com/p.zip" (some "9.9") "plugins" =
      "https://x.com/p.zip" := by
  refine ⟨by decide, ?_, ?_⟩
  · exact c2_getDownloadUrl_amended.1 "http://x.com/p.zip" "plugins" (by decide)
  · exact c2_getDownloadUrl_amended.2.1 "https://x.com/p.zip" (some "9.9") "plugins"
      (by decide)

/-- C2 counterexample: no single resolver satisfies the claim's conjunction.
The draft with the `owner/repo` branch omits the `.zip` suffix from
`plain-name.1.2`, and appends the version to an absolute URL instead of
returning it verbatim; the draft with the `.zip` suffix sends `owner/repo`
with version `v2` to the registry, not to a VCS archive URL. -/
theorem c2_counterexample :
    Utils.getDownloadUrl "plain-name" (some "1.2") "plugins" ≠
      "https://downloads.wordpress.org/plugins/plain-name.1.2.zip" ∧
    strStarts (LibUtils.getDownloadUrl "owner/repo" (some "v2") "plugins")
      "https://github.com" = false ∧
    LibUtils.getDownloadUrl "owner/repo" (some "v2") "plugins" =
      "https://downloads.wordpress.org/plugins/owner/repo.v2.zip" ∧
    Utils.getDownloadUrl "http://x.com/p.zip" (some "1.0") "plugins" =
      "http://x.com/p.zip.1.0" := by decide

/-- C3 (amended): a name containing more than one slash is not rejected —
the code defines no `InvalidSourceError` — it falls through to registry
synthesis: the `src/utils/index.js` draft returns
`https://downloads.wordpress.org/<type>/<name>` for any non-absolute name
that does not split into exactly two segments, and the
`src/lib/utils/index.js` draft returns the same URL with a `.zip` suffix for
every non-absolute name. -/
theorem c3_multislash_amended :
    (∀ name type, (strStarts name "http://" || strStarts name "https://") = false →
      (splitChar '/' name).length ≠ 2 →
      Utils.getDownloadUrl name none type =
        "https://downloads.wordpress.org/" ++ type ++ "/" ++ name) ∧
    (∀ name type, (strStarts name "http://" || strStarts name "https://") = false →
      LibUtils.getDownloadUrl name none type =
        "https://downloads.wordpress.org/" ++ type ++ "/" ++ name ++ ".zip") := by
  constructor
  · intro name type h1 h2
    unfold Utils.getDownloadUrl
    simp [jsTruthy, h1, h2]
  · intro name type h1
    unfold LibUtils.getDownloadUrl
    simp [jsTruthy, h1]

/-- C3 witness: the multi-slash name `a/b/c` takes the registry fallback in
both drafts. -/
theorem c3_witness :
    (strStarts "a/b/c" "http://" || strStarts "a/b/c" "https://") = false ∧
    (splitChar '/' "a/b/c").length ≠ 2 ∧
    Utils.getDownloadUrl "a/b/c" none "plugins" =
      "https://downloads.wordpress.org/" ++ "plugins" ++ "/" ++ "a/b/c" ∧
    LibUtils.getDownloadUrl "a/b/c" none "plugins" =
      "https://downloads.wordpress.org/" ++ "plugins" ++ "/" ++ "a/b/c" ++ ".zip" := by
  refine ⟨by decide, by decide, ?_, ?_⟩
  · exact c3_multislash_amended.1 "a/b/c" "plugins" (by decide) (by decide)
  · exact c3_multislash_amended.2 "a/b/c" "plugins" (by decide)

/-- C3 counterexample: `a/b/c` produces a registry URL in both resolver
drafts instead of failing — no error path exists in the source. -/
theorem c3_counterexample :
    Utils.getDownloadUrl "a/b/c" none "plugins" =
      "https://downloads.wordpress.org/plugins/a/b/c" ∧
    LibUtils.getDownloadUrl "a/b/c" none "plugins" =
      "https://downloads.wordpress.org/plugins/a/b/c.zip" := by decide

/-- C7 (confirmed): when the destination folder already exists,
`downloadPackage` logs a skip and returns at once: the trace is exactly the
skip step (no fetch, clone, extraction, or rename), the file system is
unchanged, and the unit completes successfully.  The check is the first
statement of the `try` block, before any network activity. -/
theorem c7_skip_if_present :
    ∀ (w : World) (tempDir destFolder name url : String) (st : St),
    hasPath st (pathJoin destFolder name) = true →
    downloadPackage w tempDir destFolder name url st =
      (st, [Ev.skip (pathJoin destFolder name)], true) := by
  intro w tempDir destFolder name url st h
  unfold downloadPackage
  simp [h]

/-- C7 witness: a pre-created `hello-dolly` destination folder short-circuits
the unit. -/
theorem c7_witness :
    hasPath ⟨["wp/plugins/hello-dolly"]⟩ (pathJoin "wp/plugins" "hello-dolly") = true ∧
    downloadPackage wOk "tmp" "wp/plugins" "hello-dolly"
      "https://downloads.wordpress.org/plugin/hello-dolly.zip"
      ⟨["wp/plugins/hello-dolly"]⟩ =
      (⟨["wp/plugins/hello-dolly"]⟩, [Ev.skip (pathJoin "wp/plugins" "hello-dolly")], true) :=
  ⟨by decide, c7_skip_if_present wOk "tmp" "wp/plugins" "hello-dolly"
    "https://downloads.wordpress.org/plugin/hello-dolly.zip"
    ⟨["wp/plugins/hello-dolly"]⟩ (by decide)⟩

/-- C6 (amended): `downloadFile` follows a redirect exactly when the status
satisfies `300 < code < 400` (so 301–399, not 300) and a truthy `Location`
header is present, recursing with the new URL and the same destination; the
final file content equals the terminal response body regardless of the chain
length; and any status `>= 400` rejects with the status message. -/
theorem c6_download_redirects_amended :
    (∀ (resp : String → HttpResponse) (u : String) (chain : List String)
       (t target : String) (files : List (String × String)) (fuel : Nat),
      lookupFile files target = none →
      RedirectsTo resp u chain t →
      isRedirectStep (resp t) = false →
      (resp t).statusCode < 400 →
      chain.length < fuel →
      downloadFile resp fuel u target files =
        ((target, (resp t).body) :: files, .ok ())) ∧
    (∀ (resp : String → HttpResponse) (u target : String)
       (files : List (String × String)) (fuel : Nat),
      lookupFile files target = none →
      400 ≤ (resp u).statusCode →
      0 < fuel →
      downloadFile resp fuel u target files =
        (files, .error (resp u).statusMessage)) := by
  constructor
  · intro resp u chain
    induction chain generalizing u with
    | nil =>
      intro t target files fuel hlook hred hterm hcode hfuel
      cases fuel with
      | zero => exact absurd hfuel (by simp)
      | succ n =>
        have hu : u = t := hred
        subst hu
        simp only [downloadFile]
        rw [hlook]
        simp only [Option.isSome_none, Bool.false_eq_true, if_false]
        rw [if_neg (Nat.not_le.mpr hcode), if_neg (by simp [hterm])]
    | cons v rest ih =>
      intro t target files fuel hlook hred hterm hcode hfuel
      obtain ⟨⟨hstep, hloc⟩, hrest⟩ := hred
      cases fuel with
      | zero => exact absurd hfuel (by simp)
      | succ n =>
        have hcode_u : (resp u).statusCode < 400 := by
          unfold isRedirectStep at hstep
          simp only [Bool.and_eq_true, decide_eq_true_eq] at hstep
          exact hstep.1.2
        simp only [downloadFile]
        rw [hlook]
        simp only [Option.isSome_none, Bool.false_eq_true, if_false]
        rw [if_neg (Nat.not_le.mpr hcode_u), if_pos hstep, hloc]
        exact ih v t target files n hlook hrest hterm hcode
          (by simpa using Nat.lt_of_succ_lt_succ (by simpa using hfuel))
  · intro resp u target files fuel hlook hcode hfuel
    cases fuel with
    | zero => exact absurd hfuel (by simp)
    | succ n =>
      simp only [downloadFile]
      rw [hlook]
      simp only [Option.isSome_none, Bool.false_eq_true, if_false]
      rw [if_pos hcode]

/-- C6 witness: a chain of three redirects (302, 301, 307) ends with the
terminal body written, and a 404 rejects with its status line. -/
theorem c6_witness :
    downloadFile respChain 4 "a" "f.zip" [] = ([("f.zip", "FINAL")], .ok ()) ∧
    downloadFile respChain 1 "nope" "f.zip" [] = ([], .error "Not Found") := by
  constructor
  · exact c6_download_redirects_amended.1 respChain "a" ["b", "c", "d"] "d" "f.zip" [] 4
      rfl ⟨⟨by decide, by decide⟩, ⟨by decide, by decide⟩, ⟨by decide, by decide⟩, rfl⟩
      (by decide) (by decide) (by decide)
  · exact c6_download_redirects_amended.2 respChain "nope" "f.zip" [] 1 rfl
      (by decide) (by decide)

/-- C6 counterexample: a status-300 response carrying a `Location` header is
in the claim's 300–399 redirect range, but the code's `code > 300` test
excludes it: the 300 response's own body is written instead of following the
redirect to the terminal body. -/
theorem c6_counterexample :
    (resp300 "a").statusCode = 300 ∧
    jsTruthy (resp300 "a").location = true ∧
    downloadFile resp300 5 "a" "f" [] = ([("f", "bodyA")], .ok ()) ∧
    (resp300 "b").body = "bodyB" ∧
    ("bodyA" : String) ≠ "bodyB" :=
  ⟨by decide, by decide, rfl, by decide, by decide⟩

lemma hasPath_addPath (st : St) (p : String) : hasPath (addPath st p) p = true := by
  unfold addPath
  split
  · assumption
  · unfold hasPath
    simp

lemma hasPath_addPath_of (st : St) (p q : String) (h : hasPath st p = true) :
    hasPath (addPath st q) p = true := by
  unfold addPath
  split
  · exact h
  · unfold hasPath at h ⊢
    simp_all

lemma hasPath_foldl_pres (g : String → String) :
    ∀ (l : List String) (st : St) (p : String), hasPath st p = true →
    hasPath (l.foldl (fun s x => addPath s (g x)) st) p = true := by
  intro l
  induction l with
  | nil => intro st p h; exact h
  | cons a rest ih =>
    intro st p h
    rw [List.foldl_cons]
    exact ih (addPath st (g a)) p (hasPath_addPath_of st p (g a) h)

lemma hasPath_foldl_mem (g : String → String) :
    ∀ (l : List String) (st : St) (e : String), e ∈ l →
    hasPath (l.foldl (fun s x => addPath s (g x)) st) (g e) = true := by
  intro l
  induction l with
  | nil => intro st e h; exact absurd h (List.not_mem_nil e)
  | cons a rest ih =>
    intro st e h
    rw [List.foldl_cons]
    rcases List.mem_cons.mp h with h1 | h2
    · subst h1
      exact hasPath_foldl_pres g rest (addPath st (g e)) (g e) (hasPath_addPath st (g e))
    · exact ih (addPath st (g a)) e h2

lemma afterDownload_spec (w : World) (name url pkgFolder : String) (st : St)
    (evs : List Ev) :
    ∃ extra, (afterDownload w name url pkgFolder st evs).2.1 = evs ++ extra ∧
      extra.all (fun e => !(isTransportEv e)) = true ∧
      (afterDownload w name url pkgFolder st evs).1 = st ∧
      (w.hasPackageJson pkgFolder = false → url ≠ "" →
        (afterDownload w name url pkgFolder st evs).2.2 = true) := by
  unfold afterDownload
  by_cases hu : url = ""
  · refine ⟨[], by simp [hu], by simp, by simp [hu], fun _ h => absurd hu h⟩
  · have hu' : (url == "") = false := by simp [hu]
    rw [hu']
    simp only [Bool.false_eq_true, if_false]
    by_cases hpj : w.hasPackageJson pkgFolder
    · rw [if_pos hpj]
      cases hn : w.npm pkgFolder with
      | error e =>
        exact ⟨[Ev.npm pkgFolder, Ev.logError name], rfl, by simp [isTransportEv],
          rfl, fun hf _ => absurd hpj (by simp [hf])⟩
      | ok _ =>
        exact ⟨[Ev.npm pkgFolder, Ev.composerE pkgFolder], rfl, by simp [isTransportEv],
          rfl, fun hf _ => absurd hpj (by simp [hf])⟩
    · rw [if_neg hpj]
      exact ⟨[Ev.composerE pkgFolder], rfl, by simp [isTransportEv], rfl, fun _ _ => rfl⟩

lemma execDownload_ok (w : World) (tempDir filename url : String) (st : St)
    (entries : List String)
    (h3 : hasPath st (pathJoin tempDir filename) = false)
    (h4 : w.download url = .ok ())
    (h5 : w.extractEntries (pathJoin tempDir filename) = .ok entries) :
    execDownload w tempDir filename url st =
      (entries.foldl (fun s e => addPath s (pathJoin tempDir (firstSegment e)))
         (addPath st (pathJoin tempDir filename)),
       [Ev.fetch url (pathJoin tempDir filename),
        Ev.extractE (pathJoin tempDir filename) tempDir],
       .ok (extractZipRoot entries)) := by
  unfold execDownload
  simp [h3, h4, h5]

lemma updateCommonRoot_cases (acc e : String) (hacc : acc = "" ∨ '/' ∉ acc.data) :
    updateCommonRoot acc e = "" ∨ updateCommonRoot acc e = acc ∨
      updateCommonRoot acc e = firstSegment e := by
  by_cases hb : acc = ""
  · right; right
    rw [hb, updateCommonRoot_init]
  · have hnos : '/' ∉ acc.data := hacc.resolve_left hb
    unfold updateCommonRoot
    have hbeq : (acc == "") = false := by simp [hb]
    rw [hbeq]
    simp only [Bool.false_eq_true, if_false]
    rw [splitChar_no_sep acc hnos]
    cases hm : firstMismatch [acc] (splitChar '/' e) with
    | none => right; left; rfl
    | some i =>
      cases i with
      | zero => left; rfl
      | succ n =>
        right; left
        simp [joinSlash]

lemma foldl_updateCommonRoot_cases :
    ∀ (entries : List String) (acc : String), acc = "" ∨ '/' ∉ acc.data →
    (entries.foldl updateCommonRoot acc = "" ∨
     entries.foldl updateCommonRoot acc = acc ∨
     ∃ e ∈ entries, entries.foldl updateCommonRoot acc = firstSegment e) := by
  intro entries
  induction entries with
  | nil => intro acc _; right; left; rfl
  | cons e rest ih =>
    intro acc hacc
    rw [List.foldl_cons]
    have hnew : updateCommonRoot acc e = "" ∨ '/' ∉ (updateCommonRoot acc e).data := by
      rcases updateCommonRoot_cases acc e hacc with h | h | h
      · left; exact h
      · rcases hacc with ha | ha
        · left; rw [h, ha]
        · right; rw [h]; exact ha
      · right; rw [h]; exact firstSegment_no_slash e
    rcases ih (updateCommonRoot acc e) hnew with h | h | ⟨x, hx, h⟩
    · left; exact h
    · rcases updateCommonRoot_cases acc e hacc with h1 | h1 | h1
      · left; rw [h, h1]
      · right; left; rw [h, h1]
      · right; right; exact ⟨e, List.mem_cons_self e rest, by rw [h, h1]⟩
    · right; right; exact ⟨x, List.mem_cons_of_mem e hx, h⟩

lemma extractZipRoot_mem (entries : List String) :
    extractZipRoot entries = "" ∨
      ∃ e ∈ entries, extractZipRoot entries = firstSegment e := by
  rcases foldl_updateCommonRoot_cases entries "" (Or.inl rfl) with h | h | h
  · left; exact h
  · left; exact h
  · right; exact h

/-- C8 (amended): a package URL is cloned if and only if its last
dot-separated segment is `git` (an explicit `.git` locator).  For such a URL
the unit clones directly into `destFolder/name` — the trace starts with the
clone step and contains no fetch, extraction, or rename — and on clone
success the destination path exists.  An inferred `owner/repo` shorthand
resolves to an `archive/refs/...` URL, which does not end in `.git` and
therefore goes through the download/extract/relocate path instead (see the
counterexample). -/
theorem c8_git_clone_amended :
    ∀ (w : World) (tempDir destFolder name url : String) (st : St),
    hasPath st (pathJoin destFolder name) = false →
    lastSeg '.' url = "git" →
    ((downloadPackage w tempDir destFolder name url st).2.1.headD Ev.configSetup =
       Ev.cloneE url (destFolder ++ "/" ++ name)) ∧
    ((downloadPackage w tempDir destFolder name url st).2.1.all
       (fun e => !(isTransportEv e)) = true) ∧
    (w.clone url = .ok () →
      hasPath (downloadPackage w tempDir destFolder name url st).1
        (destFolder ++ "/" ++ name) = true) := by
  intro w tempDir destFolder name url st h1 h2
  unfold downloadPackage
  simp only [h1, Bool.false_eq_true, if_false]
  have h2' : (lastSeg '.' url == "git") = true := by simp [h2]
  rw [h2']
  simp only [if_true]
  cases hc : w.clone url with
  | error e =>
    refine ⟨rfl, by simp [isTransportEv], fun hok => ?_⟩
    exact absurd hok (fun h => Except.noConfusion h)
  | ok _ =>
    obtain ⟨extra, hevs, hnt, hst, _⟩ :=
      afterDownload_spec w name url (pathJoin destFolder name)
        (addPath st (destFolder ++ "/" ++ name))
        [Ev.cloneE url (destFolder ++ "/" ++ name)]
    refine ⟨?_, ?_, fun _ => ?_⟩
    · rw [hevs]; rfl
    · rw [hevs]
      simp only [List.all_append, hnt, Bool.and_true]
      simp [isTransportEv]
    · rw [hst]
      exact hasPath_addPath st (destFolder ++ "/" ++ name)

/-- C8 witness: an explicit `.git` source is cloned straight into the
destination with no transport steps. -/
theorem c8_witness :
    hasPath ⟨["tmp"]⟩ (pathJoin "wp/plugins" "wpmm") = false ∧
    lastSeg '.' "https://github.com/wp-blocks/wpmm.git" = "git" ∧
    ((downloadPackage wOk "tmp" "wp/plugins" "wpmm"
        "https://github.com/wp-blocks/wpmm.git" ⟨["tmp"]⟩).2.1.headD Ev.configSetup =
      Ev.cloneE "https://github.com/wp-blocks/wpmm.git" ("wp/plugins" ++ "/" ++ "wpmm")) ∧
    ((downloadPackage wOk "tmp" "wp/plugins" "wpmm"
        "https://github.com/wp-blocks/wpmm.git" ⟨["tmp"]⟩).2.1.all
      (fun e => !(isTransportEv e)) = true) ∧
    hasPath (downloadPackage wOk "tmp" "wp/plugins" "wpmm"
        "https://github.com/wp-blocks/wpmm.git" ⟨["tmp"]⟩).1
      ("wp/plugins" ++ "/" ++ "wpmm") = true := by
  have h := c8_git_clone_amended wOk "tmp" "wp/plugins" "wpmm"
    "https://github.com/wp-blocks/wpmm.git" ⟨["tmp"]⟩ (by decide) (by decide)
  exact ⟨by decide, by decide, h.1, h.2.1, h.2.2 rfl⟩

/-- C8 counterexample: the inferred `owner/repo` shorthand resolves to a
GitHub archive URL, and the unit downloads, extracts, and renames it —
no clone step occurs, contradicting the claim that resolver-inferred
`GitRepository` sources bypass the temp-download/extract/relocate pipeline. -/
theorem c8_counterexample :
    Utils.getDownloadUrl "owner/repo" none "plugins" =
      "https://github.com/owner/repo/archive/refs/heads/master" ∧
    (downloadPackage wOk "tmp" "wp/plugins" "owner/repo"
        "https://github.com/owner/repo/archive/refs/heads/master" ⟨["tmp"]⟩).2.1 =
      [Ev.fetch "https://github.com/owner/repo/archive/refs/heads/master"
         "tmp/owner/repo.zip",
       Ev.extractE "tmp/owner/repo.zip" "tmp",
       Ev.rename "tmp/pkgroot" "wp/plugins/owner/repo",
       Ev.composerE "wp/plugins/owner/repo"] :=
  ⟨by decide, rfl⟩

/-- C9 (amended): for a non-VCS source the unit downloads the archive as
`<name>.zip` into the temp workspace, extracts it there, and renames
`path.join(tempDir, extractedRoot)` into the destination.  When extraction
reports an empty root, `path.join` collapses to the temp directory itself, so
the unit relocates the whole temp workspace into the destination — there is
no fallback to a package-name folder. -/
theorem c9_relocation_amended :
    ∀ (w : World) (tempDir destFolder name url : String) (st : St)
      (entries : List String),
    hasPath st (pathJoin destFolder name) = false →
    (lastSeg '.' url == "git") = false →
    hasPath st (pathJoin tempDir (name ++ ".zip")) = false →
    w.download url = .ok () →
    w.extractEntries (pathJoin tempDir (name ++ ".zip")) = .ok entries →
    hasPath st tempDir = true →
    (List.take 3 (downloadPackage w tempDir destFolder name url st).2.1 =
      [Ev.fetch url (pathJoin tempDir (name ++ ".zip")),
       Ev.extractE (pathJoin tempDir (name ++ ".zip")) tempDir,
       Ev.rename (pathJoin tempDir (extractZipRoot entries)) (pathJoin destFolder name)]) ∧
    (extractZipRoot entries = "" →
      pathJoin tempDir (extractZipRoot entries) = tempDir) := by
  intro w tempDir destFolder name url st entries h1 h2 h3 h4 h5 h6
  refine ⟨?_, fun hr => by rw [hr]; simp [pathJoin]⟩
  unfold downloadPackage
  simp only [h1, Bool.false_eq_true, if_false, h2]
  rw [execDownload_ok w tempDir (name ++ ".zip") url st entries h3 h4 h5]
  have hsrc : hasPath
      (entries.foldl (fun s e => addPath s (pathJoin tempDir (firstSegment e)))
        (addPath st (pathJoin tempDir (name ++ ".zip"))))
      (pathJoin tempDir (extractZipRoot entries)) = true := by
    rcases extractZipRoot_mem entries with hr | ⟨e, he, hr⟩
    · rw [hr]
      have : pathJoin tempDir "" = tempDir := by simp [pathJoin]
      rw [this]
      exact hasPath_foldl_pres _ entries _ tempDir
        (hasPath_addPath_of st tempDir _ h6)
    · rw [hr]
      exact hasPath_foldl_mem (fun x => pathJoin tempDir (firstSegment x)) entries _ e he
  simp only [hsrc, if_true]
  obtain ⟨extra, hevs, _, _, _⟩ :=
    afterDownload_spec w name url (pathJoin destFolder name)
      (renameFs _ (pathJoin tempDir (extractZipRoot entries)) (pathJoin destFolder name))
      ([Ev.fetch url (pathJoin tempDir (name ++ ".zip")),
        Ev.extractE (pathJoin tempDir (name ++ ".zip")) tempDir] ++
       [Ev.rename (pathJoin tempDir (extractZipRoot entries)) (pathJoin destFolder name)])
  rw [hevs]
  simp [List.take]

/-- C9 witness: an archive with the single root folder `pkgroot` is
downloaded to the temp dir, extracted there, and `tmp/pkgroot` is renamed
into the destination. -/
theorem c9_witness :
    hasPath ⟨["tmp"]⟩ (pathJoin "wp/plugins" "pkg") = false ∧
    wOk.extractEntries (pathJoin "tmp" ("pkg" ++ ".zip")) = .ok ["pkgroot/index.php"] ∧
    List.take 3 (downloadPackage wOk "tmp" "wp/plugins" "pkg"
        "https://example.com/pkg.zip" ⟨["tmp"]⟩).2.1 =
      [Ev.fetch "https://example.com/pkg.zip" (pathJoin "tmp" ("pkg" ++ ".zip")),
       Ev.extractE (pathJoin "tmp" ("pkg" ++ ".zip")) "tmp",
       Ev.rename (pathJoin "tmp" (extractZipRoot ["pkgroot/index.php"]))
         (pathJoin "wp/plugins" "pkg")] := by
  refine ⟨by decide, rfl, ?_⟩
  exact (c9_relocation_amended wOk "tmp" "wp/plugins" "pkg"
    "https://example.com/pkg.zip" ⟨["tmp"]⟩ ["pkgroot/index.php"]
    (by decide) (by decide) (by decide) rfl rfl (by decide)).1

/-- C9 counterexample: with entries `a/x`, `b/y` the detected root is empty
and the unit renames the temp directory itself (`tmp`, not a package-name
folder `tmp/pkg`) into the destination. -/
theorem c9_counterexample :
    extractZipRoot ["a/x", "b/y"] = "" ∧
    pathJoin "tmp" (extractZipRoot ["a/x", "b/y"]) = "tmp" ∧
    pathJoin "tmp" "pkg" = "tmp/pkg" ∧
    (downloadPackage wEmptyRoot "tmp" "wp/plugins" "pkg"
        "https://example.com/pkg.zip" ⟨["tmp"]⟩).2.1 =
      [Ev.fetch "https://example.com/pkg.zip" "tmp/pkg.zip",
       Ev.extractE "tmp/pkg.zip" "tmp",
       Ev.rename "tmp" "wp/plugins/pkg",
       Ev.composerE "wp/plugins/pkg"] :=
  ⟨by decide, by decide, by decide, rfl⟩

lemma getD_append_left {α : Type} (d : α) :
    ∀ (X Y : List α) (n : Nat), n < X.length → (X ++ Y).getD n d = X.getD n d := by
  intro X
  induction X with
  | nil => intro Y n h; simp at h
  | cons a rest ih =>
    intro Y n h
    cases n with
    | zero => rfl
    | succ m =>
      simp only [List.cons_append, List.getD_cons_succ]
      exact ih Y m (Nat.lt_of_succ_lt_succ h)

lemma getD_append_right {α : Type} (d : α) :
    ∀ (X Y : List α) (n : Nat), X.length ≤ n →
    (X ++ Y).getD n d = Y.getD (n - X.length) d := by
  intro X
  induction X with
  | nil => intro Y n h; simp
  | cons a rest ih =>
    intro Y n h
    cases n with
    | zero => simp at h
    | succ m =>
      simp only [List.cons_append, List.getD_cons_succ, List.length_cons,
        Nat.succ_sub_succ]
      exact ih Y m (Nat.le_of_succ_le_succ h)

lemma getD_mem {α : Type} (d : α) :
    ∀ (l : List α) (n : Nat), n < l.length → l.getD n d ∈ l := by
  intro l
  induction l with
  | nil => intro n h; simp at h
  | cons a rest ih =>
    intro n h
    cases n with
    | zero => exact List.mem_cons_self a rest
    | succ m =>
      exact List.mem_cons_of_mem a (ih m (Nat.lt_of_succ_lt_succ h))

lemma split_lt {α : Type} (d : α) (X Y : List α) (P Q : α → Prop)
    (hPY : ∀ a ∈ Y, ¬ P a) (hQX : ∀ a ∈ X, ¬ Q a)
    (i j : Nat) (hi : i < (X ++ Y).length) (_hj : j < (X ++ Y).length)
    (hp : P ((X ++ Y).getD i d)) (hq : Q ((X ++ Y).getD j d)) : i < j := by
  have hlen : (X ++ Y).length = X.length + Y.length := List.length_append X Y
  have hiX : i < X.length := by
    by_contra h
    push_neg at h
    rw [getD_append_right d X Y i h] at hp
    have hY : i - X.length < Y.length := by omega
    exact hPY _ (getD_mem d Y (i - X.length) hY) hp
  have hjX : X.length ≤ j := by
    by_contra h
    push_neg at h
    rw [getD_append_left d X Y j h] at hq
    exact hQX _ (getD_mem d X j h) hq
  omega

lemma interleave_mem {xs ys zs : List Act} (h : Interleave xs ys zs) :
    ∀ {a : Act}, a ∈ zs → a ∈ xs ∨ a ∈ ys := by
  induction h with
  | nil => intro a ha; exact absurd ha (List.not_mem_nil a)
  | left h ih =>
    intro a ha
    rcases List.mem_cons.mp ha with h1 | h2
    · left; exact h1 ▸ List.mem_cons_self _ _
    · rcases ih h2 with h3 | h3
      · left; exact List.mem_cons_of_mem _ h3
      · right; exact h3
  | right h ih =>
    intro a ha
    rcases List.mem_cons.mp ha with h1 | h2
    · right; exact h1 ▸ List.mem_cons_self _ _
    · rcases ih h2 with h3 | h3
      · left; exact h3
      · right; exact List.mem_cons_of_mem _ h3

lemma mergeOf_mem {ls : List (List Act)} {m : List Act} (h : MergeOf ls m) :
    ∀ {a : Act}, a ∈ m → ∃ l ∈ ls, a ∈ l := by
  induction h with
  | nil => intro a ha; exact absurd ha (List.not_mem_nil a)
  | cons hint hrest ih =>
    intro a ha
    rcases interleave_mem hint ha with h1 | h2
    · exact ⟨_, List.mem_cons_self _ _, h1⟩
    · obtain ⟨l, hl, hal⟩ := ih h2
      exact ⟨l, List.mem_cons_of_mem _ hl, hal⟩

lemma interleave_nil_left : ∀ (ys : List Act), Interleave [] ys ys := by
  intro ys
  induction ys with
  | nil => exact Interleave.nil
  | cons y rest ih => exact Interleave.right ih

lemma interleave_append_self : ∀ (xs ys : List Act), Interleave xs ys (xs ++ ys) := by
  intro xs ys
  induction xs with
  | nil => simpa using interleave_nil_left ys
  | cons x rest ih => exact Interleave.left ih

lemma mergeOf_flatten : ∀ (ls : List (List Act)), MergeOf ls ls.flatten := by
  intro ls
  induction ls with
  | nil => exact MergeOf.nil
  | cons l rest ih =>
    exact MergeOf.cons (by simpa using interleave_append_self l rest.flatten) ih

lemma tagActs_role {r : Role} {n : String} {evs : List Ev} {a : Act}
    (h : a ∈ tagActs r n evs) : a.role = r := by
  unfold tagActs at h
  obtain ⟨e, _, he⟩ := List.mem_map.mp h
  rw [← he]

lemma runUnitsGo_roles (w : World) (paths : Paths) :
    ∀ (units : List (Role × PkgSpec)) (st : St) (traces : List (List Act)),
    (∀ u ∈ units, u.1 = Role.plugin ∨ u.1 = Role.theme) →
    (∀ l ∈ traces, ∀ a ∈ l, a.role = Role.plugin ∨ a.role = Role.theme) →
    ∀ l ∈ (runUnitsGo w paths units st traces).2, ∀ a ∈ l,
      a.role = Role.plugin ∨ a.role = Role.theme := by
  intro units
  induction units with
  | nil => intro st traces _ htr; exact htr
  | cons u rest ih =>
    intro st traces hu htr
    unfold runUnitsGo
    apply ih
    · intro x hx; exact hu x (List.mem_cons_of_mem u hx)
    · intro l hl
      rcases List.mem_append.mp hl with h1 | h2
      · exact htr l h1
      · intro a ha
        have hl' : l = tagActs u.1 u.2.name
            (Package.install w paths.tempDir (getDestFolder paths (roleTypeString u.1))
              (roleTypeString u.1) u.2 st).2.1 := by simpa using h2
        have := tagActs_role (hl' ▸ ha)
        rw [this]
        exact hu u (List.mem_cons_self u rest)

lemma unitsOf_roles (cfg : Config) :
    ∀ u ∈ unitsOf cfg, u.1 = Role.plugin ∨ u.1 = Role.theme := by
  intro u hu
  unfold unitsOf at hu
  rcases List.mem_append.mp hu with h | h
  · left
    cases hp : cfg.plugins with
    | none => rw [hp] at h; exact absurd h (List.not_mem_nil u)
    | some ps =>
      rw [hp] at h
      obtain ⟨p, _, hpu⟩ := List.mem_map.mp h
      rw [← hpu]
  · right
    cases hp : cfg.themes with
    | none => rw [hp] at h; exact absurd h (List.not_mem_nil u)
    | some ts =>
      rw [hp] at h
      obtain ⟨p, _, hpu⟩ := List.mem_map.mp h
      rw [← hpu]

lemma installPackages_unitTraces_roles (w : World) (cfg : Config) (paths : Paths)
    (st0 : St) :
    ∀ l ∈ (Installer.installPackages w cfg paths st0).unitTraces, ∀ a ∈ l,
      a.role = Role.plugin ∨ a.role = Role.theme := by
  unfold Installer.installPackages
  cases hw : cfg.wordpress with
  | none =>
    simp only [hw]
    exact runUnitsGo_roles w paths (unitsOf cfg) _ [] (unitsOf_roles cfg) (by simp)
  | some wp =>
    simp only [hw]
    exact runUnitsGo_roles w paths (unitsOf cfg) _ [] (unitsOf_roles cfg) (by simp)

lemma installPackages_preActs_roles (w : World) (cfg : Config) (paths : Paths)
    (st0 : St) :
    ∀ a ∈ (Installer.installPackages w cfg paths st0).preActs,
      a.role = Role.orch ∨ a.role = Role.core := by
  unfold Installer.installPackages
  cases hw : cfg.wordpress with
  | none =>
    simp only [hw]
    intro a ha
    left
    have : a = (⟨Role.orch, "", Ev.mkTempDir paths.tempDir⟩ : Act) := by simpa using ha
    rw [this]
  | some wp =>
    simp only [hw]
    intro a ha
    have ha' : a = (⟨Role.orch, "", Ev.mkTempDir paths.tempDir⟩ : Act) ∨
        a ∈ tagActs Role.core wp.name
          (WpPackage.install w paths wp (addPath st0 paths.tempDir)).2 := by
      simpa using ha
    rcases ha' with h1 | h2
    · left; rw [h1]
    · right; exact tagActs_role h2

lemma installPackages_postActs_roles (w : World) (cfg : Config) (paths : Paths)
    (st0 : St) :
    ∀ a ∈ (Installer.installPackages w cfg paths st0).postActs, a.role = Role.post := by
  unfold Installer.installPackages
  cases hw : cfg.wordpress with
  | none =>
    simp only [hw]
    split
    · intro a ha; exact tagActs_role ha
    · intro a ha; exact absurd ha (List.not_mem_nil a)
  | some wp =>
    simp only [hw]
    split
    · intro a ha; exact tagActs_role ha
    · intro a ha; exact absurd ha (List.not_mem_nil a)

/-- C4 (confirmed): in every trace of `installPackages` the core unit, when
declared, is awaited to completion before any plugin or theme step occurs:
every core-role step has a strictly smaller index than every plugin- or
theme-role step, and every plugin/theme step has a strictly smaller index
than every post-install command step (all unit promises are awaited by
`Promise.all` before the post-install block runs). -/
theorem c4_core_first :
    ∀ (w : World) (cfg : Config) (paths : Paths) (st0 : St) (t : List Act),
    IsInstallTrace w cfg paths st0 t → CoreFirst t ∧ UnitsBeforePost t := by
  intro w cfg paths st0 t ht
  obtain ⟨m, hm, heq⟩ := ht
  have hpre := installPackages_preActs_roles w cfg paths st0
  have hpost := installPackages_postActs_roles w cfg paths st0
  have hmid : ∀ a ∈ m, a.role = Role.plugin ∨ a.role = Role.theme := by
    intro a ha
    obtain ⟨l, hl, hal⟩ := mergeOf_mem hm ha
    exact installPackages_unitTraces_roles w cfg paths st0 l hl a hal
  subst heq
  constructor
  · intro i j hi hj hp hq
    rw [List.append_assoc] at hi hj hp hq
    refine split_lt dAct _ _
      (fun a => a.role = Role.core)
      (fun a => a.role = Role.plugin ∨ a.role = Role.theme)
      ?_ ?_ i j hi hj hp hq
    · intro a ha
      rcases List.mem_append.mp ha with h1 | h2
      · rcases hmid a h1 with h | h <;> simp [h]
      · simp [hpost a h2]
    · intro a ha
      rcases hpre a ha with h | h <;> simp [h]
  · intro i j hi hj hp hq
    refine split_lt dAct _ _
      (fun a => a.role = Role.plugin ∨ a.role = Role.theme)
      (fun a => a.role = Role.post)
      ?_ ?_ i j hi hj hp hq
    · intro a ha
      simp [hpost a ha]
    · intro a ha
      rcases List.mem_append.mp ha with h1 | h2
      · rcases hpre a h1 with h | h <;> simp [h]
      · rcases hmid a h2 with h | h <;> simp [h]

/-- C4 witness: the canonical trace of a manifest with a core system, two
plugins, and a post-install command orders core before plugins before
commands. -/
theorem c4_witness :
    IsInstallTrace wOk cfgC4 paths0 ⟨[]⟩ tC4 ∧ CoreFirst tC4 ∧ UnitsBeforePost tC4 := by
  have htrace : IsInstallTrace wOk cfgC4 paths0 ⟨[]⟩ tC4 :=
    ⟨(Installer.installPackages wOk cfgC4 paths0 ⟨[]⟩).unitTraces.flatten,
      mergeOf_flatten _, rfl⟩
  have h := c4_core_first wOk cfgC4 paths0 ⟨[]⟩ tC4 htrace
  exact ⟨htrace, h.1, h.2⟩

/-- C5 (confirmed): any transport, extraction, clone, or secondary-build
error inside one package unit is caught at the unit boundary
(`downloadPackage`'s `try`/`catch`) and only logged: for every error cause
`e`, a run over two plugins where `alpha`'s download (`mkW5`), extraction
(`mkW5x`), clone (`mkW5c`, with an explicit `.git` source), or npm secondary
build (`mkW5n`) fails with `e` and `beta`'s install succeeds still runs both
units, completes (the trace reaches cleanup and the orchestrator returns),
leaves the sibling `beta` installed, and removes the temp workspace; in the
transport, extraction, and clone cases `alpha` is absent, while in the
secondary-build case `alpha`'s files were already relocated before the build
failed, so its folder persists. -/
theorem c5_failure_isolation :
    ∀ e : String,
    hasPath (Installer.run (mkW5 e) cfg5 paths0 ⟨[]⟩).1 "wp/plugins/beta" = true ∧
    hasPath (Installer.run (mkW5 e) cfg5 paths0 ⟨[]⟩).1 "wp/plugins/alpha" = false ∧
    hasPath (Installer.run (mkW5 e) cfg5 paths0 ⟨[]⟩).1 "tmp" = false ∧
    (Installer.run (mkW5 e) cfg5 paths0 ⟨[]⟩).2.unitTraces =
      [[⟨Role.plugin, "alpha",
          Ev.fetch "https://downloads.wordpress.org/plugin/alpha.zip" "tmp/alpha.zip"⟩,
        ⟨Role.plugin, "alpha", Ev.logError "alpha"⟩],
       [⟨Role.plugin, "beta",
          Ev.fetch "https://downloads.wordpress.org/plugin/beta.zip" "tmp/beta.zip"⟩,
        ⟨Role.plugin, "beta", Ev.extractE "tmp/beta.zip" "tmp"⟩,
        ⟨Role.plugin, "beta", Ev.rename "tmp/beta" "wp/plugins/beta"⟩,
        ⟨Role.plugin, "beta", Ev.composerE "wp/plugins/beta"⟩]] ∧
    hasPath (Installer.run (mkW5x e) cfg5 paths0 ⟨[]⟩).1 "wp/plugins/beta" = true ∧
    hasPath (Installer.run (mkW5x e) cfg5 paths0 ⟨[]⟩).1 "wp/plugins/alpha" = false ∧
    (Installer.run (mkW5x e) cfg5 paths0 ⟨[]⟩).2.unitTraces =
      [[⟨Role.plugin, "alpha",
          Ev.fetch "https://downloads.wordpress.org/plugin/alpha.zip" "tmp/alpha.zip"⟩,
        ⟨Role.plugin, "alpha", Ev.extractE "tmp/alpha.zip" "tmp"⟩,
        ⟨Role.plugin, "alpha", Ev.logError "alpha"⟩],
       [⟨Role.plugin, "beta",
          Ev.fetch "https://downloads.wordpress.org/plugin/beta.zip" "tmp/beta.zip"⟩,
        ⟨Role.plugin, "beta", Ev.extractE "tmp/beta.zip" "tmp"⟩,
        ⟨Role.plugin, "beta", Ev.rename "tmp/beta" "wp/plugins/beta"⟩,
        ⟨Role.plugin, "beta", Ev.composerE "wp/plugins/beta"⟩]] ∧
    hasPath (Installer.run (mkW5c e) cfg5c paths0 ⟨[]⟩).1 "wp/plugins/beta" = true ∧
    hasPath (Installer.run (mkW5c e) cfg5c paths0 ⟨[]⟩).1 "wp/plugins/alpha" = false ∧
    hasPath (Installer.run (mkW5c e) cfg5c paths0 ⟨[]⟩).1 "tmp" = false ∧
    (Installer.run (mkW5c e) cfg5c paths0 ⟨[]⟩).2.unitTraces =
      [[⟨Role.plugin, "alpha",
          Ev.cloneE "https://github.com/x/alpha.git" "wp/plugins/alpha"⟩,
        ⟨Role.plugin, "alpha", Ev.logError "alpha"⟩],
       [⟨Role.plugin, "beta",
          Ev.fetch "https://downloads.wordpress.org/plugin/beta.zip" "tmp/beta.zip"⟩,
        ⟨Role.plugin, "beta", Ev.extractE "tmp/beta.zip" "tmp"⟩,
        ⟨Role.plugin, "beta", Ev.rename "tmp/beta" "wp/plugins/beta"⟩,
        ⟨Role.plugin, "beta", Ev.composerE "wp/plugins/beta"⟩]] ∧
    hasPath (Installer.run (mkW5n e) cfg5 paths0 ⟨[]⟩).1 "wp/plugins/beta" = true ∧
    hasPath (Installer.run (mkW5n e) cfg5 paths0 ⟨[]⟩).1 "wp/plugins/alpha" = true ∧
    hasPath (Installer.run (mkW5n e) cfg5 paths0 ⟨[]⟩).1 "tmp" = false ∧
    (Installer.run (mkW5n e) cfg5 paths0 ⟨[]⟩).2.unitTraces =
      [[⟨Role.plugin, "alpha",
          Ev.fetch "https://downloads.wordpress.org/plugin/alpha.zip" "tmp/alpha.zip"⟩,
        ⟨Role.plugin, "alpha", Ev.extractE "tmp/alpha.zip" "tmp"⟩,
        ⟨Role.plugin, "alpha", Ev.rename "tmp/alpha" "wp/plugins/alpha"⟩,
        ⟨Role.plugin, "alpha", Ev.npm "wp/plugins/alpha"⟩,
        ⟨Role.plugin, "alpha", Ev.logError "alpha"⟩],
       [⟨Role.plugin, "beta",
          Ev.fetch "https://downloads.wordpress.org/plugin/beta.zip" "tmp/beta.zip"⟩,
        ⟨Role.plugin, "beta", Ev.extractE "tmp/beta.zip" "tmp"⟩,
        ⟨Role.plugin, "beta", Ev.rename "tmp/beta" "wp/plugins/beta"⟩,
        ⟨Role.plugin, "beta", Ev.composerE "wp/plugins/beta"⟩]] :=
  fun _ => ⟨rfl, rfl, rfl, rfl, rfl, rfl, rfl, rfl, rfl, rfl, rfl, rfl, rfl, rfl, rfl⟩

/-- C10 (code bug evidence): the guard at `src/lib/Installer.js` line 65
calls the `async` function `isWPCLIAvailable()` without `await`, so the
returned `Promise` object is truthy regardless of actual availability: with
WP-CLI unavailable and two declared commands, the commands are still
executed — in declaration order, and the first command's failure does not
abort the second. -/
theorem c10_postinstall_runs_without_wpcli :
    w10.wpCliAvailable = false ∧
    isWPCLIAvailableCallTruthy w10 = true ∧
    (Installer.installPackages w10 cfg10 paths0 ⟨[]⟩).postActs =
      [⟨Role.post, "", Ev.cmd "wp plugin activate x"⟩,
       ⟨Role.post, "", Ev.cmdFailed "wp plugin activate x"⟩,
       ⟨Role.post, "", Ev.cmd "wp cache flush"⟩] :=
  ⟨rfl, rfl, rfl⟩

end Wpmm
